import Mathlib

/-! # Verification of the borehole density map processor

Shallow embedding of `scripts/processor.py`: the script downloads a borehole
point dataset (staleness-checked), loads it into DuckDB, reprojects the
geometry, extracts `lon` and `lat` columns, tags every point with an H3 cell
identifier at each of the 16 resolutions 0..15, and then, one resolution at a
time, groups by cell, counts, derives the cell boundary WKT, exports the
aggregate to a JSON artifact and drops the aggregate table.

Coordinates and timestamps are modelled with rationals, table rows with lists,
nullable SQL columns with `Option`, and the per-resolution loop over the
database state with an explicit state record and a step trace. -/

namespace BoreholeDensity

/-! ## Staleness check (processor.py, lines 17 to 24) -/

/-- Model of the filesystem view read by the staleness check: `mtimes path` is
`some t` when the path exists with modification timestamp `t` (in seconds), and
`none` when `os.path.exists` is false. -/
structure FileSystem where
  mtimes : String → Option ℚ

/-- Two weeks in seconds, the value of `timedelta(weeks=2)`. -/
def twoWeeksSeconds : ℚ := 14 * 24 * 60 * 60

/-- Embedding of `is_file_older_than_two_weeks` (lines 17 to 24): a missing
path counts as old; otherwise the file is old exactly when its modification
time is strictly before the instant two weeks before `now`. -/
def is_file_older_than_two_weeks (fs : FileSystem) (now : ℚ)
    (filepath : String) : Bool :=
  match fs.mtimes filepath with
  | none => true
  | some file_time => decide (file_time < now - twoWeeksSeconds)

/-! ## H3 indexing model

Modelled from the spec: `h3_latlng_to_cell` and `h3_cell_to_boundary_wkt` come
from the DuckDB `h3` community extension, whose source is not part of this
repository.  Per the spec (section 4.2 and the glossary) the indexing function
is a deterministic hierarchical point-to-cell map: every (lat, lon) pair maps
to exactly one cell per resolution, a cell at resolution `r` lies inside
exactly one cell at resolution `r - 1`, and each cell carries a stable
identifier from which the boundary polygon is derived independently of the
member points.  We realise those guarantees with a nested latitude/longitude
grid: resolution `r` splits the latitude span into `2 ^ r` rows and the
longitude span into `2 ^ r` columns, and the identifier records the resolution
together with the row and column indices (real H3 packs the same information
into a single 64-bit integer). -/

/-- Cell identifier of the modelled hierarchical index. -/
structure CellId where
  res : ℕ
  row : ℤ
  col : ℤ
deriving DecidableEq

/-- Modelled from the spec: the deterministic point-to-cell indexing function
(`h3_latlng_to_cell` in the source), realised as floor division of the shifted
coordinates on a `2 ^ r` by `2 ^ r` grid. -/
def h3_latlng_to_cell (lat lon : ℚ) (r : ℕ) : CellId :=
  ⟨r, ⌊(lat + 90) * 2 ^ r / 180⌋, ⌊(lon + 180) * 2 ^ r / 360⌋⟩

/-- Parent of a cell: one resolution coarser, halving the row and column
indices (each grid cell splits into four children at the next resolution). -/
def cellParent (c : CellId) : CellId :=
  ⟨c.res - 1, c.row / 2, c.col / 2⟩

/-- Modelled from the spec: `h3_cell_to_boundary_wkt`, the boundary polygon of
a cell in well-known text, a function of the cell identifier alone. -/
def h3_cell_to_boundary_wkt (c : CellId) : String :=
  let y0 : ℚ := (c.row : ℚ) * 180 / 2 ^ c.res - 90
  let y1 : ℚ := ((c.row : ℚ) + 1) * 180 / 2 ^ c.res - 90
  let x0 : ℚ := (c.col : ℚ) * 360 / 2 ^ c.res - 180
  let x1 : ℚ := ((c.col : ℚ) + 1) * 360 / 2 ^ c.res - 180
  "POLYGON ((" ++ toString x0 ++ " " ++ toString y0 ++ ", " ++
    toString x1 ++ " " ++ toString y0 ++ ", " ++
    toString x1 ++ " " ++ toString y1 ++ ", " ++
    toString x0 ++ " " ++ toString y1 ++ ", " ++
    toString x0 ++ " " ++ toString y0 ++ "))"

/-- Halving under the floor: the floor of `q / 2` is the (euclidean) half of
the floor of `q`. -/
theorem floor_div_two (q : ℚ) : ⌊q / 2⌋ = ⌊q⌋ / 2 := by
  have hle : (⌊q⌋ : ℚ) ≤ q := Int.floor_le q
  have hlt : q < ⌊q⌋ + 1 := Int.lt_floor_add_one q
  have hdm : 2 * (⌊q⌋ / 2) + ⌊q⌋ % 2 = ⌊q⌋ := Int.ediv_add_emod ⌊q⌋ 2
  have hm0 : (0 : ℤ) ≤ ⌊q⌋ % 2 := Int.emod_nonneg ⌊q⌋ (by norm_num)
  have hm1 : ⌊q⌋ % 2 < 2 := Int.emod_lt_of_pos ⌊q⌋ (by norm_num)
  have h2 : (⌊q⌋ : ℚ) = 2 * ((⌊q⌋ / 2 : ℤ) : ℚ) + ((⌊q⌋ % 2 : ℤ) : ℚ) := by
    exact_mod_cast hdm.symm
  have hm0q : (0 : ℚ) ≤ ((⌊q⌋ % 2 : ℤ) : ℚ) := by exact_mod_cast hm0
  have hm1q : ((⌊q⌋ % 2 : ℤ) : ℚ) ≤ 1 := by exact_mod_cast Int.lt_add_one_iff.mp hm1
  rw [Int.floor_eq_iff]
  constructor
  · linarith
  · linarith

/-- Nesting of the modelled grid: coarsening the cell of a point by one
resolution is the same as indexing the point at the coarser resolution. -/
theorem h3_parent (lat lon : ℚ) (r : ℕ) :
    cellParent (h3_latlng_to_cell lat lon (r + 1)) = h3_latlng_to_cell lat lon r := by
  have hy : (lat + 90) * 2 ^ (r + 1) / 180 / 2 = (lat + 90) * 2 ^ r / 180 := by
    rw [pow_succ]; ring
  have hx : (lon + 180) * 2 ^ (r + 1) / 360 / 2 = (lon + 180) * 2 ^ r / 360 := by
    rw [pow_succ]; ring
  simp only [cellParent, h3_latlng_to_cell, ← floor_div_two, hy, hx,
    Nat.add_sub_cancel]

/-! ## The point relation and cell tagging (lines 86 to 103) -/

/-- One row of the `boreholes` table after coordinate normalisation (lines 86
to 95): the derived `lon` and `lat` columns.  The raw geometry column is not
modelled since no later stage reads it. -/
structure Borehole where
  lat : ℚ
  lon : ℚ
deriving DecidableEq

/-- One row of the `boreholes` table after the tagging loop (lines 98 to 103):
the scalar coordinates plus the sixteen nullable `h3_scale_i` BIGINT columns. -/
structure TaggedBorehole where
  lat : ℚ
  lon : ℚ
  h3_scale : Fin 16 → Option CellId

/-- The tagging loop body (line 102) on one row: every `h3_scale_i` column is
set to `h3_latlng_to_cell(lat, lon, i)`. -/
def tagBorehole (b : Borehole) : TaggedBorehole :=
  ⟨b.lat, b.lon, fun r => some (h3_latlng_to_cell b.lat b.lon r)⟩

/-- The tagging loop (lines 98 to 103) over the whole table. -/
def tagBoreholes (bs : List Borehole) : List TaggedBorehole :=
  bs.map tagBorehole

/-- Re-running the cell assignment on an already tagged row, recomputing every
cell column from the stored coordinates. -/
def retagBorehole (t : TaggedBorehole) : TaggedBorehole :=
  ⟨t.lat, t.lon, fun r => some (h3_latlng_to_cell t.lat t.lon r)⟩

/-! ## Per-resolution aggregation (lines 108 to 116) -/

/-- One row of the `boreholes_h3_scale_j` aggregate table (line 111): the
`cell`, `wkt` and `count` columns.  `cell` and `wkt` are nullable. -/
structure AggRow where
  cell : Option CellId
  wkt : Option String
  count : ℕ
deriving DecidableEq

/-- The `h3_scale_r` column of the tagged table, as read by the aggregation
query. -/
def h3Column (tbs : List TaggedBorehole) (r : Fin 16) : List (Option CellId) :=
  tbs.map (fun t => t.h3_scale r)

/-- One output row of the `GROUP BY h3_scale_j` query (line 111) for group key
`c`: `wkt` is null on the null group (SQL scalar functions propagate null) and
`COUNT(h3_scale_j)` counts only the non-null values of the grouped column, so
the null group counts 0 and every other group counts its cardinality. -/
def aggRowOf (cells : List (Option CellId)) (c : Option CellId) : AggRow :=
  { cell := c
    wkt := c.map h3_cell_to_boundary_wkt
    count := match c with
      | none => 0
      | some v => cells.count (some v) }

/-- The `CREATE TABLE boreholes_h3_scale_j AS SELECT ... GROUP BY h3_scale_j`
statement (lines 110 to 112) applied to one column of cell values: one row per
distinct value of the column (SQL groups all nulls together). -/
def aggregateCells (cells : List (Option CellId)) : List AggRow :=
  cells.dedup.map (aggRowOf cells)

/-- The aggregate table for resolution `r` built from the tagged table. -/
def boreholes_h3_scale (tbs : List TaggedBorehole) (r : Fin 16) : List AggRow :=
  aggregateCells (h3Column tbs r)

/-- The resolution-`r` aggregate of the whole pipeline: tag, then aggregate. -/
def resolutionAggregate (bs : List Borehole) (r : Fin 16) : List AggRow :=
  boreholes_h3_scale (tagBoreholes bs) r

/-- Sum of the `count` column over an aggregate table. -/
def sumCounts (rows : List AggRow) : ℕ :=
  (rows.map AggRow.count).sum

/-! ## Session state and the aggregation loop (lines 108 to 116) -/

/-- The DuckDB session state seen by the aggregation loop: the tagged
`boreholes` table, the per-resolution aggregate tables currently present
(`aggs j = some t` when table `boreholes_h3_scale_j` exists with contents
`t`), and the exported artifacts (`files j = some t` when the file
`./public/data/h3_scale_j.json` holds the array of records `t`). -/
structure DB where
  boreholes : List TaggedBorehole
  aggs : Fin 16 → Option (List AggRow)
  files : Fin 16 → Option (List AggRow)

/-- Lines 110 to 112: `CREATE TABLE boreholes_h3_scale_j AS SELECT ...`. -/
def createAgg (j : Fin 16) (s : DB) : DB :=
  { s with aggs := Function.update s.aggs j (some (boreholes_h3_scale s.boreholes j)) }

/-- Line 113: `COPY boreholes_h3_scale_j TO ... (ARRAY)`, overwriting the
artifact for resolution `j` with the current contents of the aggregate table. -/
def exportAgg (j : Fin 16) (s : DB) : DB :=
  { s with files := Function.update s.files j (s.aggs j) }

/-- Line 116: `DROP TABLE boreholes_h3_scale_j`. -/
def dropAgg (j : Fin 16) (s : DB) : DB :=
  { s with aggs := Function.update s.aggs j none }

/-- The `scales` list (line 98). -/
def scales : List (Fin 16) :=
  [0, 1, 2, 3, 4, 5, 6, 7, 8, 9, 10, 11, 12, 13, 14, 15]

/-- States reached by the aggregation loop (lines 108 to 116), one state after
each SQL statement: create, export, drop, then the remaining resolutions. -/
def runStates (s : DB) : List (Fin 16) → List DB
  | [] => []
  | j :: rest =>
      createAgg j s :: exportAgg j (createAgg j s) ::
        dropAgg j (exportAgg j (createAgg j s)) ::
          runStates (dropAgg j (exportAgg j (createAgg j s))) rest

/-- Final state of the aggregation loop. -/
def runFinal (s : DB) : List (Fin 16) → DB
  | [] => s
  | j :: rest => runFinal (dropAgg j (exportAgg j (createAgg j s))) rest

/-- Session state right after tagging completes: no aggregate tables and no
artifacts yet. -/
def dbOf (tbs : List TaggedBorehole) : DB :=
  ⟨tbs, fun _ => none, fun _ => none⟩

/-- Trace of the aggregation loop of the full pipeline from raw points. -/
def pipelineTrace (bs : List Borehole) : List DB :=
  runStates (dbOf (tagBoreholes bs)) scales

/-- Final session state of the full pipeline. -/
def finalState (bs : List Borehole) : DB :=
  runFinal (dbOf (tagBoreholes bs)) scales

/-! ## Loop invariants -/

theorem runFinal_boreholes (l : List (Fin 16)) (s : DB) :
    (runFinal s l).boreholes = s.boreholes := by
  induction l generalizing s with
  | nil => rfl
  | cons j rest ih => simpa [runFinal, dropAgg, exportAgg, createAgg] using ih _

theorem runFinal_files_of_not_mem (l : List (Fin 16)) (s : DB) (j : Fin 16)
    (h : j ∉ l) : (runFinal s l).files j = s.files j := by
  induction l generalizing s with
  | nil => rfl
  | cons k rest ih =>
      have hk : j ≠ k := fun he => h (he ▸ List.mem_cons_self k rest)
      have hr : j ∉ rest := fun hm => h (List.mem_cons_of_mem k hm)
      rw [runFinal, ih _ hr]
      simp [dropAgg, exportAgg, createAgg, Function.update_noteq hk]

theorem runFinal_files_of_mem (l : List (Fin 16)) (s : DB) (j : Fin 16)
    (h : j ∈ l) :
    (runFinal s l).files j = some (boreholes_h3_scale s.boreholes j) := by
  induction l generalizing s with
  | nil => cases h
  | cons k rest ih =>
      by_cases hr : j ∈ rest
      · rw [runFinal, ih _ hr]
        simp [dropAgg, exportAgg, createAgg]
      · have hk : j = k := by
          rcases List.mem_cons.mp h with h1 | h1
          · exact h1
          · exact absurd h1 hr
        subst hk
        rw [runFinal, runFinal_files_of_not_mem _ _ _ hr]
        simp [dropAgg, exportAgg, createAgg]

theorem runFinal_aggs_none (l : List (Fin 16)) (s : DB)
    (h : ∀ k, s.aggs k = none) : ∀ k, (runFinal s l).aggs k = none := by
  induction l generalizing s with
  | nil => exact h
  | cons j rest ih =>
      rw [runFinal]
      refine ih _ fun k => ?_
      by_cases hk : k = j
      · subst hk; simp [dropAgg, exportAgg, createAgg]
      · simp [dropAgg, exportAgg, createAgg, Function.update_noteq hk, h k]

/-- One whole loop iteration leaves no aggregate table behind when none was
present on entry. -/
theorem step_aggs_none (i : Fin 16) (s : DB) (h : ∀ k, s.aggs k = none)
    (k : Fin 16) : (dropAgg i (exportAgg i (createAgg i s))).aggs k = none := by
  by_cases hk : k = i
  · subst hk; simp [dropAgg, exportAgg, createAgg]
  · simp [dropAgg, exportAgg, createAgg, Function.update_noteq hk, h k]

/-- In an update of an everywhere-null table map, only the updated slot can be
occupied. -/
theorem update_aggs_isSome {f : Fin 16 → Option (List AggRow)}
    (h : ∀ k, f k = none) (i j : Fin 16) (v : Option (List AggRow))
    (hj : (Function.update f i v j).isSome) : j = i := by
  by_cases hk : j = i
  · exact hk
  · rw [Function.update_noteq hk, h j] at hj; cases hj

/-- Every state of the aggregation loop carries the same `boreholes` table. -/
theorem mem_runStates_boreholes (l : List (Fin 16)) (s : DB) :
    ∀ t ∈ runStates s l, t.boreholes = s.boreholes := by
  induction l generalizing s with
  | nil => intro t ht; cases ht
  | cons i rest ih =>
      intro t ht
      simp only [runStates, List.mem_cons] at ht
      rcases ht with rfl | rfl | rfl | ht
      · rfl
      · rfl
      · rfl
      · exact (ih _ t ht).trans rfl

/-- Starting with no aggregate tables, every state of the loop holds at most
one aggregate table. -/
theorem mem_runStates_single_agg (l : List (Fin 16)) (s : DB)
    (h : ∀ k, s.aggs k = none) :
    ∀ t ∈ runStates s l, ∀ j k, (t.aggs j).isSome → (t.aggs k).isSome → j = k := by
  induction l generalizing s with
  | nil => intro t ht; cases ht
  | cons i rest ih =>
      intro t ht
      simp only [runStates, List.mem_cons] at ht
      rcases ht with rfl | rfl | rfl | ht
      · intro j k hj hk
        rw [update_aggs_isSome h i j _ hj, update_aggs_isSome h i k _ hk]
      · intro j k hj hk
        rw [update_aggs_isSome h i j _ hj, update_aggs_isSome h i k _ hk]
      · intro j k hj _
        rw [step_aggs_none i s h j] at hj
        cases hj
      · exact ih _ (step_aggs_none i s h) t ht

/-- A release of the resolution-`j` aggregate table between two consecutive
states happens only once the resolution-`j` artifact is written. -/
def releasedAfterExport (a b : DB) : Prop :=
  ∀ j, (a.aggs j).isSome → b.aggs j = none → (b.files j).isSome

/-- Starting with no aggregate tables, consecutive loop states only ever drop
an aggregate table after its artifact has been exported. -/
theorem chain_runStates (l : List (Fin 16)) (s : DB)
    (h : ∀ k, s.aggs k = none) :
    List.Chain' releasedAfterExport (s :: runStates s l) := by
  induction l generalizing s with
  | nil => simp [runStates]
  | cons i rest ih =>
      rw [runStates]
      refine List.Chain'.cons ?_ (List.Chain'.cons ?_ (List.Chain'.cons ?_
        (ih _ (step_aggs_none i s h))))
      · intro j hj
        rw [h j] at hj
        cases hj
      · intro j hj hnone
        rw [show (exportAgg i (createAgg i s)).aggs = (createAgg i s).aggs
          from rfl] at hnone
        rw [hnone] at hj
        cases hj
      · intro j hj _
        have hji : j = i :=
          update_aggs_isSome h i j _ hj
        subst hji
        show ((Function.update (createAgg j s).files j ((createAgg j s).aggs j)) j).isSome
        rw [Function.update_same]
        show ((Function.update s.aggs j _) j).isSome
        rw [Function.update_same]
        rfl

/-! ## Aggregation lemmas -/

/-- The `count` column of one aggregate row: the group size for a non-null
key, zero for the null group. -/
theorem aggRowOf_count (cells : List (Option CellId)) (c : Option CellId) :
    (aggRowOf cells c).count = if c.isSome then cells.count c else 0 := by
  cases c
  · rfl
  · rfl

/-- The `cell` column of the aggregate lists the distinct values of the
grouped column, in order of first occurrence. -/
theorem aggregateCells_map_cell (cells : List (Option CellId)) :
    (aggregateCells cells).map AggRow.cell = cells.dedup := by
  rw [aggregateCells, List.map_map]
  have hcomp : AggRow.cell ∘ aggRowOf cells = id := by
    funext c
    rfl
  rw [hcomp, List.map_id]

/-- Counting occurrences in a list does not depend on which lawful equality
test is used. -/
theorem count_decEq (a : Option CellId) (l : List (Option CellId)) :
    @List.count _ instBEqOfDecidableEq a l = l.count a := by
  induction l with
  | nil => rfl
  | cons x xs ih =>
      rw [@List.count_cons _ instBEqOfDecidableEq, List.count_cons, ih]
      by_cases h : x = a
      · subst h; simp
      · simp [h]

/-- Count conservation over one grouped column: the counts of the aggregate
rows sum to the number of non-null entries of the column. -/
theorem sumCounts_aggregateCells (cells : List (Option CellId)) :
    sumCounts (aggregateCells cells) = cells.countP (fun c => c.isSome) := by
  have hdedup : cells.dedup.toFinset = cells.toFinset := by
    apply List.toFinset.ext
    intro a
    simp [List.mem_dedup]
  have hL : sumCounts (aggregateCells cells)
      = ∑ c ∈ cells.toFinset, (aggRowOf cells c).count := by
    rw [sumCounts, aggregateCells, List.map_map, ← hdedup,
      List.sum_toFinset _ (List.nodup_dedup cells)]
    rfl
  have hR : cells.countP (fun c => c.isSome)
      = ∑ c ∈ cells.toFinset, if c.isSome then cells.count c else 0 := by
    rw [List.countP_eq_length_filter, ← List.sum_toFinset_count_eq_length,
      List.toFinset_filter, Finset.sum_filter]
    apply Finset.sum_congr rfl
    intro a _
    rw [count_decEq]
    by_cases ha : a.isSome = true
    · rw [if_pos ha, if_pos ha]
      exact List.count_filter ha
    · rw [if_neg ha, if_neg ha]
  rw [hL, hR]
  apply Finset.sum_congr rfl
  intro c _
  rw [aggRowOf_count]

/-- The cell column produced by the tagging loop: every entry is the non-null
index of the stored coordinates. -/
theorem h3Column_tag (bs : List Borehole) (r : Fin 16) :
    h3Column (tagBoreholes bs) r
      = bs.map (fun b => some (h3_latlng_to_cell b.lat b.lon r)) := by
  rw [h3Column, tagBoreholes, List.map_map]
  rfl

/-- Mapping a function over a column cannot increase the number of distinct
values. -/
theorem dedup_length_map_le (l : List (Option CellId))
    (f : Option CellId → Option CellId) :
    ((l.map f).dedup).length ≤ l.dedup.length := by
  rw [← List.card_toFinset, ← List.card_toFinset]
  have himg : (l.map f).toFinset = l.toFinset.image f := by
    ext a
    simp
  rw [himg]
  exact Finset.card_image_le

/-! ## Claims -/

/-- C1: Count conservation — for every resolution, the `count` values over all
rows of the resolution aggregate sum to the number of points whose cell column
at that resolution is non-null: no points dropped, no double-counting. -/
theorem C1_count_conservation (tbs : List TaggedBorehole) (r : Fin 16) :
    sumCounts (boreholes_h3_scale tbs r)
      = (h3Column tbs r).countP (fun c => c.isSome) :=
  sumCounts_aggregateCells (h3Column tbs r)

/-- C2: Aggregate row correctness — at every resolution the aggregate relation
has pairwise-distinct cell values, a row for a cell value exactly when the
value occurs in the tagged column, and every row counts at least one point and
exactly the points whose cell at that resolution equals the row cell. -/
theorem C2_aggregate_rows (bs : List Borehole) (r : Fin 16) :
    ((resolutionAggregate bs r).map AggRow.cell).Nodup
    ∧ (∀ c : Option CellId,
        (∃ row ∈ resolutionAggregate bs r, row.cell = c)
          ↔ c ∈ h3Column (tagBoreholes bs) r)
    ∧ (∀ row ∈ resolutionAggregate bs r,
        1 ≤ row.count
        ∧ row.count = (h3Column (tagBoreholes bs) r).count row.cell) := by
  have hsome : ∀ c ∈ h3Column (tagBoreholes bs) r, c.isSome = true := by
    rw [h3Column_tag]
    intro c hc
    rcases List.mem_map.mp hc with ⟨b, _, rfl⟩
    rfl
  refine ⟨?_, ?_, ?_⟩
  · rw [show resolutionAggregate bs r
        = aggregateCells (h3Column (tagBoreholes bs) r) from rfl,
      aggregateCells_map_cell]
    exact List.nodup_dedup _
  · intro c
    constructor
    · rintro ⟨row, hrow, hcell⟩
      rcases List.mem_map.mp hrow with ⟨c', hc', hrc⟩
      rw [← hcell, ← hrc]
      exact List.mem_dedup.mp hc'
    · intro hc
      exact ⟨aggRowOf (h3Column (tagBoreholes bs) r) c,
        List.mem_map_of_mem _ (List.mem_dedup.mpr hc), rfl⟩
  · intro row hrow
    rcases List.mem_map.mp hrow with ⟨c, hc, hrc⟩
    have hcmem : c ∈ h3Column (tagBoreholes bs) r := List.mem_dedup.mp hc
    have hcs : c.isSome = true := hsome c hcmem
    have hcount : row.count = (h3Column (tagBoreholes bs) r).count row.cell := by
      rw [← hrc, aggRowOf_count, if_pos hcs]
      rfl
    refine ⟨?_, hcount⟩
    rw [hcount]
    have hcell : row.cell = c := by rw [← hrc]; rfl
    rw [hcell]
    exact Nat.succ_le_of_lt (List.count_pos_iff.mpr hcmem)

/-- C3: Cell assignment is pure and idempotent — the tagging step determines
the cell column at each resolution solely from the stored latitude, longitude
and the resolution, it changes nothing besides adding the cell columns, and
re-running the assignment on a tagged row reproduces the identical row. -/
theorem C3_pure_idempotent_tagging (b : Borehole) (r : Fin 16) :
    (tagBorehole b).lat = b.lat
    ∧ (tagBorehole b).lon = b.lon
    ∧ (tagBorehole b).h3_scale r = some (h3_latlng_to_cell b.lat b.lon r)
    ∧ retagBorehole (tagBorehole b) = tagBorehole b :=
  ⟨rfl, rfl, rfl, rfl⟩

/-- Witness for C2: in the one-point pipeline the unique aggregate row counts
at least one point. -/
theorem C2_aggregate_rows_witness :
    1 ≤ (aggRowOf (h3Column (tagBoreholes [⟨0, 0⟩]) 0)
        (some (h3_latlng_to_cell 0 0 0))).count :=
  ((C2_aggregate_rows [⟨0, 0⟩] 0).2.2
    (aggRowOf (h3Column (tagBoreholes [⟨0, 0⟩]) 0)
      (some (h3_latlng_to_cell 0 0 0)))
    (List.mem_cons_self _ _)).1

/-- C4: Pipeline determinism — the aggregate of a resolution, viewed as the
set of its (cell, wkt, count) rows, is fully determined by the input point
multiset: two runs on inputs equal up to row order give equal row sets. -/
theorem C4_determinism (bs₁ bs₂ : List Borehole) (r : Fin 16)
    (h : bs₁.Perm bs₂) :
    (resolutionAggregate bs₁ r).toFinset = (resolutionAggregate bs₂ r).toFinset := by
  have hcol : (h3Column (tagBoreholes bs₁) r).Perm (h3Column (tagBoreholes bs₂) r) :=
    (h.map tagBorehole).map _
  have hfun : aggRowOf (h3Column (tagBoreholes bs₁) r)
      = aggRowOf (h3Column (tagBoreholes bs₂) r) := by
    funext c
    cases c with
    | none => rfl
    | some v =>
        have hcnt : (h3Column (tagBoreholes bs₁) r).count (some v)
            = (h3Column (tagBoreholes bs₂) r).count (some v) := by
          rw [← count_decEq, ← count_decEq]
          exact hcol.count_eq _
        simp only [aggRowOf, hcnt]
  have hrows : (resolutionAggregate bs₁ r).Perm (resolutionAggregate bs₂ r) := by
    rw [show resolutionAggregate bs₁ r
        = (h3Column (tagBoreholes bs₁) r).dedup.map
          (aggRowOf (h3Column (tagBoreholes bs₁) r)) from rfl, hfun]
    exact (hcol.dedup).map _
  exact List.toFinset_eq_of_perm _ _ hrows

/-- Witness for C4: swapping two input rows leaves the aggregate row set
unchanged. -/
theorem C4_determinism_witness :
    (resolutionAggregate [(⟨0, 0⟩ : Borehole), ⟨1, 1⟩] 0).toFinset
      = (resolutionAggregate [(⟨1, 1⟩ : Borehole), ⟨0, 0⟩] 0).toFinset :=
  C4_determinism _ _ 0 (List.Perm.swap _ _ _)

/-- C5: Empty input — with an empty point table every resolution aggregate is
empty and the loop still exports, for every resolution, an artifact holding an
empty array of records. -/
theorem C5_empty_input (r : Fin 16) :
    resolutionAggregate [] r = [] ∧ (finalState []).files r = some [] := by
  have hmem : ∀ j : Fin 16, j ∈ scales := by decide
  exact ⟨rfl, runFinal_files_of_mem scales (dbOf (tagBoreholes [])) r (hmem r)⟩

/-- C6: Monotonic cell growth — for the same point set the aggregate at the
finer of two consecutive resolutions has at least as many rows, that is
distinct cells, as at the coarser one. -/
theorem C6_monotonic_growth (bs : List Borehole) (r : ℕ) (h15 : r < 15) :
    (resolutionAggregate bs ⟨r, by omega⟩).length
      ≤ (resolutionAggregate bs ⟨r + 1, by omega⟩).length := by
  have hlen : ∀ j : Fin 16, (resolutionAggregate bs j).length
      = (h3Column (tagBoreholes bs) j).dedup.length := fun j =>
    List.length_map _ _
  have hcol : h3Column (tagBoreholes bs) ⟨r, by omega⟩
      = (h3Column (tagBoreholes bs) ⟨r + 1, by omega⟩).map
        (Option.map cellParent) := by
    rw [h3Column_tag, h3Column_tag, List.map_map]
    apply List.map_congr_left
    intro b _
    show some (h3_latlng_to_cell b.lat b.lon r)
        = Option.map cellParent (some (h3_latlng_to_cell b.lat b.lon (r + 1)))
    rw [show Option.map cellParent (some (h3_latlng_to_cell b.lat b.lon (r + 1)))
        = some (cellParent (h3_latlng_to_cell b.lat b.lon (r + 1))) from rfl,
      h3_parent]
  rw [hlen, hlen, hcol]
  exact dedup_length_map_le _ _

/-- Witness for C6 at the two coarsest resolutions of the empty point set. -/
theorem C6_monotonic_growth_witness :
    (resolutionAggregate [] ⟨0, by omega⟩).length
      ≤ (resolutionAggregate [] ⟨0 + 1, by omega⟩).length :=
  C6_monotonic_growth [] 0 (by omega)

/-- C7: Nesting invariant — identifying a cell with the set of points indexed
to it, the cell of a point at a finer resolution lies inside its cell at the
next coarser resolution: any point assigned the same finer cell is also
assigned the same coarser cell. -/
theorem C7_nesting (b b' : Borehole) (r : ℕ) (h15 : r + 1 < 16)
    (h : (tagBorehole b').h3_scale ⟨r + 1, h15⟩
      = (tagBorehole b).h3_scale ⟨r + 1, h15⟩) :
    (tagBorehole b').h3_scale ⟨r, by omega⟩
      = (tagBorehole b).h3_scale ⟨r, by omega⟩ := by
  have h1 : h3_latlng_to_cell b'.lat b'.lon (r + 1)
      = h3_latlng_to_cell b.lat b.lon (r + 1) := Option.some.inj h
  show some (h3_latlng_to_cell b'.lat b'.lon r)
      = some (h3_latlng_to_cell b.lat b.lon r)
  rw [← h3_parent b'.lat b'.lon r, ← h3_parent b.lat b.lon r, h1]

/-- Witness for C7 at the origin and the two coarsest resolutions. -/
theorem C7_nesting_witness :
    (tagBorehole ⟨0, 0⟩).h3_scale ⟨0, by omega⟩
      = (tagBorehole ⟨0, 0⟩).h3_scale ⟨0, by omega⟩ :=
  C7_nesting ⟨0, 0⟩ ⟨0, 0⟩ 0 (by omega) rfl

/-- C8: Frame and sequencing of the per-resolution loop — along the trace of
the aggregation loop the tagged point table is never mutated, no state holds
two per-resolution aggregate tables at once, and between consecutive states an
aggregate table is only released once its artifact has been exported. -/
theorem C8_frame_sequencing (bs : List Borehole) :
    (∀ t ∈ pipelineTrace bs, t.boreholes = tagBoreholes bs)
    ∧ (∀ t ∈ pipelineTrace bs, ∀ j k,
        (t.aggs j).isSome → (t.aggs k).isSome → j = k)
    ∧ List.Chain' releasedAfterExport
        (dbOf (tagBoreholes bs) :: pipelineTrace bs) :=
  ⟨mem_runStates_boreholes scales _,
    mem_runStates_single_agg scales _ (fun _ => rfl),
    chain_runStates scales _ (fun _ => rfl)⟩

/-- Witness for C8: the first loop state of the empty-input run still carries
the tagged table. -/
theorem C8_frame_sequencing_witness :
    (createAgg 0 (dbOf (tagBoreholes []))).boreholes = tagBoreholes [] :=
  (C8_frame_sequencing []).1 _ (List.mem_cons_self _ _)

/-- C9: Null-cell behaviour — when the tagged column at resolution `r` has a
null entry, the resolution-`r` aggregate holds a row with null cell, null
boundary and count zero, and that row is part of the exported artifact. -/
theorem C9_null_cells (tbs : List TaggedBorehole) (r : Fin 16)
    (h : none ∈ h3Column tbs r) :
    ∃ row ∈ boreholes_h3_scale tbs r,
      row.cell = none ∧ row.wkt = none ∧ row.count = 0
      ∧ ∃ art, (runFinal (dbOf tbs) scales).files r = some art ∧ row ∈ art := by
  have hmem : ∀ j : Fin 16, j ∈ scales := by decide
  refine ⟨aggRowOf (h3Column tbs r) none,
    List.mem_map_of_mem _ (List.mem_dedup.mpr h), rfl, rfl, rfl,
    boreholes_h3_scale tbs r, ?_,
    List.mem_map_of_mem _ (List.mem_dedup.mpr h)⟩
  exact runFinal_files_of_mem scales (dbOf tbs) r (hmem r)

/-- Witness for C9 on a one-row table whose cell columns are all null. -/
theorem C9_null_cells_witness :
    ∃ row ∈ boreholes_h3_scale [(⟨0, 0, fun _ => none⟩ : TaggedBorehole)] 0,
      row.cell = none ∧ row.wkt = none ∧ row.count = 0
      ∧ ∃ art, (runFinal (dbOf [(⟨0, 0, fun _ => none⟩ : TaggedBorehole)])
          scales).files 0 = some art ∧ row ∈ art :=
  C9_null_cells _ 0 (List.mem_cons_self _ _)

/-- C10: Staleness check — a missing path always counts as older than two
weeks, and an existing path counts as older exactly when its modification
time is strictly before the instant two weeks before now. -/
theorem C10_staleness (fs : FileSystem) (now : ℚ) (filepath : String) :
    (fs.mtimes filepath = none →
      is_file_older_than_two_weeks fs now filepath = true)
    ∧ ∀ t, fs.mtimes filepath = some t →
        (is_file_older_than_two_weeks fs now filepath = true
          ↔ t < now - twoWeeksSeconds) := by
  constructor
  · intro h
    simp only [is_file_older_than_two_weeks, h]
  · intro t h
    simp only [is_file_older_than_two_weeks, h, decide_eq_true_eq]

/-- Witness for C10: the shapefile path is stale on an empty filesystem. -/
theorem C10_staleness_witness :
    is_file_older_than_two_weeks ⟨fun _ => none⟩ 0 "borehole/borehole.shp"
      = true :=
  (C10_staleness ⟨fun _ => none⟩ 0 "borehole/borehole.shp").1 rfl

end BoreholeDensity
